import Mathlib

/-!
# Module-scoped diagram projection of `frontend/app.js`

A shallow embedding of the zoom logic of `frontend/app.js`: the module selector
(`populateZoomOptions`), the view controller step (`applyZoom`, `renderResults`) and the three
projections (`buildC4ForModule`, `filterDependencies`, `filterMermaidLines`).

Modelling conventions.

* A JavaScript string is the list of its characters (`JsString`), so the model covers the
  well-formed strings (no lone surrogate). Splitting at the newline, substring search and the
  replacement of `/` and `.` act on whole characters of such strings.
* `moduleStructure` is the list of the own properties of the parsed JSON object, in stored order.
  A property read finds the own property first, then the members every object inherits from
  `Object.prototype` (`getProperty`), and yields `undefined` otherwise. Calling `forEach` on an
  inherited member throws a `TypeError`, so `buildC4ForModule` returns an `Except`.
* The text of a diagram element is the string last assigned to its `textContent`; the rendering
  collaborator (`mermaid.run()`) is external and is not modelled.
-/

namespace RepoDiagram

/-- A JavaScript string, as the list of its characters. -/
abbrev JsString := List Char

/-! ## String primitives -/

/-- The method `s.split('\n')`: the pieces of `s` between newline characters. The result always
has at least one element; the empty string gives one empty piece. -/
def splitLines : JsString → List JsString
  | [] => [[]]
  | c :: cs =>
    if c = '\n' then [] :: splitLines cs
    else
      match splitLines cs with
      | [] => [[c]]
      | l :: ls => (c :: l) :: ls

/-- The method `lines.join('\n')`. -/
def joinLines : List JsString → JsString
  | [] => []
  | [l] => l
  | l :: l2 :: ls => l ++ '\n' :: joinLines (l2 :: ls)

/-- Whether `s` begins with `p` (the test made at each position by `includes`). -/
def startsWith : JsString → JsString → Bool
  | _, [] => true
  | [], _ :: _ => false
  | c :: cs, p :: ps => c == p && startsWith cs ps

/-- The method `line.includes(needle)`: `needle` occurs in `line` at some position. -/
def includes : JsString → JsString → Bool
  | [], needle => startsWith [] needle
  | c :: cs, needle => startsWith (c :: cs) needle || includes cs needle

/-- The characters removed by `trim()`: the ECMAScript WhiteSpace and LineTerminator code points. -/
def isWhiteSpace (c : Char) : Bool :=
  let n := c.toNat
  n = 0x09 || n = 0x0A || n = 0x0B || n = 0x0C || n = 0x0D || n = 0x20 || n = 0xA0
    || n = 0x1680 || (0x2000 ≤ n && n ≤ 0x200A) || n = 0x2028 || n = 0x2029 || n = 0x202F
    || n = 0x205F || n = 0x3000 || n = 0xFEFF

/-- The method `s.trim()`: `s` without its leading and trailing white space. -/
def trim (s : JsString) : JsString :=
  ((s.dropWhile isWhiteSpace).reverse.dropWhile isWhiteSpace).reverse

/-- The expression `a || b` on strings: the empty string is falsy. -/
def strOr (a b : JsString) : JsString :=
  if a = [] then b else a

/-- The call `s.replace(/[\/.]/g, '_')`: every `/` and every `.` becomes `_`. -/
def replaceSlashDot (s : JsString) : JsString :=
  s.map fun c => if c = '/' ∨ c = '.' then '_' else c

/-! ## Dependency and route projections -/

/-- The placeholder pushed by `filterDependencies` when nothing is kept. -/
def emptyDependencies : JsString := "    Empty[No dependencies in module]".toList

/-- The placeholder pushed by `filterMermaidLines` when nothing is kept. -/
def noRoutes : JsString := "    NoRoutes[No routes for module]".toList

/-- The placeholder pushed by `buildC4ForModule` when the module has no file. -/
def emptyFiles : JsString := "    Empty[No files in module]".toList

/-- The idiom `if (filtered.length === 0) filtered.push(placeholder)`. -/
def pushIfEmpty (filtered : List JsString) (placeholder : JsString) : List JsString :=
  if filtered.length = 0 then filtered ++ [placeholder] else filtered

/-- The idiom `const header = lines.shift()` followed by `[header, ...rest].join('\n')`: an absent
header (`undefined`) is joined as the empty string. -/
def shiftHeader (lines : List JsString) : JsString × List JsString :=
  ((lines.head?).getD [], lines.tail)

/-- The callback given to `lines.filter` in `filterDependencies(module)`. -/
def keepDependencyLine (module : JsString) (line : JsString) : Bool :=
  let modulePfx := if module = ['.'] then [] else module ++ ['/']
  if (trim line).isEmpty then false
  else if module = ['.'] then !(includes line ['/'])
  else includes line modulePfx

/-- The function `filterDependencies(module)`, with `originalDiagrams.dependencies` as the
argument `dependencies`. -/
def filterDependencies (dependencies : JsString) (module : JsString) : JsString :=
  let lines := splitLines dependencies
  let (header, lines) := shiftHeader lines
  let filtered := lines.filter (keepDependencyLine module)
  let filtered := pushIfEmpty filtered emptyDependencies
  joinLines (header :: filtered)

/-- The function `filterMermaidLines(mermaidSource, module)`. -/
def filterMermaidLines (mermaidSource : JsString) (module : JsString) : JsString :=
  let lines := splitLines mermaidSource
  let (header, lines) := shiftHeader lines
  let filtered := lines.filter fun line => includes line module
  let filtered := pushIfEmpty filtered noRoutes
  joinLines (header :: filtered)

/-- The body the specification describes: the kept lines, or the placeholder alone when no line
is kept. -/
def orPlaceholder (kept : List JsString) (placeholder : JsString) : List JsString :=
  if kept = [] then [placeholder] else kept

/-! ## Component projection -/

/-- The object `moduleStructure`: its own properties in stored order, each a module name with the
file paths of the module. Keys of an object are unique. -/
abbrev ModuleStructure := List (JsString × List JsString)

/-- The expression `Object.keys(moduleStructure)`. -/
def objectKeys (moduleStructure : ModuleStructure) : List JsString :=
  moduleStructure.map Prod.fst

/-- The names of the members that every object inherits from `Object.prototype` (ECMAScript
`Object.prototype`, with the accessors of Annex B). Each is a function, or for `__proto__` the
prototype object itself: a truthy value that is not an array and has no `forEach`. -/
def objectPrototypeKeys : List JsString :=
  ["constructor".toList, "hasOwnProperty".toList, "isPrototypeOf".toList,
   "propertyIsEnumerable".toList, "toLocaleString".toList, "toString".toList, "valueOf".toList,
   "__proto__".toList, "__defineGetter__".toList, "__defineSetter__".toList,
   "__lookupGetter__".toList, "__lookupSetter__".toList]

/-- What a property read of `moduleStructure` yields: `undefined`, the array stored under an own
key, or a member inherited from `Object.prototype`. -/
inductive JsValue where
  | undefined
  | array (items : List JsString)
  | inherited
  deriving DecidableEq, Repr

/-- The error a call can throw. -/
inductive JsError where
  | typeError
  deriving DecidableEq, Repr

deriving instance DecidableEq for Except

/-- The property read `moduleStructure[module]`: the own property if there is one, else the
inherited member of that name, else `undefined`. -/
def getProperty (moduleStructure : ModuleStructure) (module : JsString) : JsValue :=
  match moduleStructure.lookup module with
  | some files => .array files
  | none => if module ∈ objectPrototypeKeys then .inherited else .undefined

/-- The expression `value || []`: `undefined` is falsy, arrays and inherited members are truthy. -/
def orEmptyArray : JsValue → JsValue
  | .undefined => .array []
  | value => value

/-- The constant `safeId` of `buildC4ForModule`: `module.replace(/[\/.]/g, '_') || 'root'`. -/
def safeId (module : JsString) : JsString :=
  strOr (replaceSlashDot module) "root".toList

/-- The constant `fileId` of `buildC4ForModule`, the template `${safeId}_${file.replace(..)}`. -/
def fileId (module file : JsString) : JsString :=
  safeId module ++ "_".toList ++ replaceSlashDot file

/-- The root line of `buildC4ForModule`, the template `    ${safeId}[${module || '.'}]`. -/
def rootLine (module : JsString) : JsString :=
  "    ".toList ++ safeId module ++ "[".toList ++ strOr module ".".toList ++ "]".toList

/-- The line pushed for one file, the template `    ${safeId} --> ${fileId}[${file}]`. -/
def fileLine (module file : JsString) : JsString :=
  "    ".toList ++ safeId module ++ " --> ".toList ++ fileId module file ++ "[".toList ++ file
    ++ "]".toList

/-- The function `buildC4ForModule(module)`, with the global `moduleStructure` as an argument.
When `files` is not an array, `files.forEach` is not a function and the call throws. -/
def buildC4ForModule (moduleStructure : ModuleStructure) (module : JsString) :
    Except JsError JsString :=
  let files := orEmptyArray (getProperty moduleStructure module)
  let lines := ["graph TD".toList]
  let lines := lines ++ [rootLine module]
  match files with
  | .array files =>
    let lines := files.foldl (fun acc file => acc ++ [fileLine module file]) lines
    let lines := if files.length = 0 then lines ++ [emptyFiles] else lines
    .ok (joinLines lines)
  | _ => .error .typeError

/-- The operation `filesOf(modules, name)` of the specification: the list stored under `name`, or
the empty list when `name` is absent from the mapping. -/
def filesOf (moduleStructure : ModuleStructure) (module : JsString) : List JsString :=
  (moduleStructure.lookup module).getD []

/-- A line of the diagram grammar of the specification: the header, a node declaration
`<id>[<label>]`, or an edge declaration `<id> --> <id>[<label>]`. -/
inductive DiagramLine where
  | header (text : JsString)
  | node (ident label : JsString)
  | edge (source target label : JsString)
  deriving DecidableEq, Repr

/-- The text of a line of the diagram grammar, with the indentation `buildC4ForModule` writes. -/
def renderLine : DiagramLine → JsString
  | .header text => text
  | .node ident label => "    ".toList ++ ident ++ "[".toList ++ label ++ "]".toList
  | .edge source target label =>
    "    ".toList ++ source ++ " --> ".toList ++ target ++ "[".toList ++ label ++ "]".toList

/-- The identifiers that stand on a line of the diagram grammar. -/
def lineIdentifiers : DiagramLine → List JsString
  | .header _ => []
  | .node ident _ => [ident]
  | .edge source target _ => [source, target]

/-- The identifier of the node that a line declares with its label: the node of a node
declaration, the target of an edge declaration. -/
def declaredIdentifier : DiagramLine → Option JsString
  | .header _ => none
  | .node ident _ => some ident
  | .edge _ target _ => some target

/-- The declarations of the component view of the module `module` with the file list `files`:
the header, the root node, then one edge per file from the root node to the node of the file, or
the placeholder node `Empty` when there is no file. -/
def c4Declarations (files : List JsString) (module : JsString) : List DiagramLine :=
  .header "graph TD".toList ::
    .node (safeId module) (strOr module ".".toList) ::
    (if files = [] then [.node "Empty".toList "No files in module".toList]
     else files.map fun file => .edge (safeId module) (fileId module file) file)

/-! ## Module selector -/

/-- The UTF-16 code units of a character. -/
def utf16 (c : Char) : List Nat :=
  if c.toNat < 0x10000 then [c.toNat]
  else [0xD800 + (c.toNat - 0x10000) / 0x400, 0xDC00 + (c.toNat - 0x10000) % 0x400]

/-- The UTF-16 code units of a string, which the default comparison of `sort()` compares. -/
def codeUnits (s : JsString) : List Nat :=
  (s.map utf16).flatten

/-- Lexicographic `a < b` on code unit sequences. -/
def unitsLt : List Nat → List Nat → Bool
  | [], [] => false
  | [], _ :: _ => true
  | _ :: _, [] => false
  | a :: as, b :: bs => decide (a < b) || (a == b && unitsLt as bs)

/-- The order of `sort()` without a comparator: `a` is placed no later than `b` unless `b < a` as
code unit sequences. -/
def SortLe (a b : JsString) : Prop :=
  unitsLt (codeUnits b) (codeUnits a) = false

instance : DecidableRel SortLe := fun a b =>
  inferInstanceAs (Decidable (unitsLt (codeUnits b) (codeUnits a) = false))

/-- The call `keys.sort()` (a stable sort by `SortLe`). -/
def sortKeys (keys : List JsString) : List JsString :=
  keys.insertionSort SortLe

/-- An `option` element of the selector: its `value` and its `textContent`. -/
structure ZoomOption where
  value : JsString
  textContent : JsString
  deriving DecidableEq, Repr

/-- The function `populateZoomOptions()`: the children of `zoomSelect` afterwards. -/
def populateZoomOptions (moduleStructure : ModuleStructure) : List ZoomOption :=
  let defaultOption : ZoomOption := { value := [], textContent := "All modules".toList }
  let options := [defaultOption]
  (sortKeys (objectKeys moduleStructure)).foldl
    (fun options module =>
      if module = [] ∨ module = ".".toList then options
      else options ++ [{ value := module, textContent := module }])
    options

/-! ## View controller -/

/-- The object `originalDiagrams`. -/
structure Diagrams where
  c4 : JsString
  dependencies : JsString
  routes : JsString
  db : JsString
  deriving DecidableEq, Repr

/-- The fields of the analysis response that the zoom logic reads: `data.diagrams` and
`data.modules` (which may be absent). -/
structure AnalysisData where
  c4_modules_mermaid : JsString
  dependencies_mermaid : JsString
  routes_mermaid : JsString
  db_mermaid : JsString
  modules : Option ModuleStructure

/-- The globals of `app.js` that the zoom logic reads and writes: `originalDiagrams`,
`moduleStructure`, the `textContent` of the four diagram elements, and the selector. -/
structure ViewState where
  originalDiagrams : Diagrams
  moduleStructure : ModuleStructure
  c4Diagram : JsString
  dependenciesDiagram : JsString
  routesDiagram : JsString
  dbDiagram : JsString
  zoomOptions : List ZoomOption
  zoomValue : JsString

/-- The function `applyZoom(module)`: the globals after the call. The else branch evaluates
`buildC4ForModule(module)` before its first assignment, so a call that throws there has written
nothing. -/
def applyZoom (s : ViewState) (module : JsString) : ViewState :=
  if module = [] then
    { s with
      c4Diagram := s.originalDiagrams.c4
      dependenciesDiagram := s.originalDiagrams.dependencies
      routesDiagram := s.originalDiagrams.routes
      dbDiagram := s.originalDiagrams.db }
  else
    match buildC4ForModule s.moduleStructure module with
    | .error _ => s
    | .ok c4 =>
      { s with
        c4Diagram := c4
        dependenciesDiagram := filterDependencies s.originalDiagrams.dependencies module
        routesDiagram := filterMermaidLines s.originalDiagrams.routes module
        dbDiagram := s.originalDiagrams.db }

/-- The part of `renderResults(data)` that touches the zoom state. -/
def renderResults (s : ViewState) (data : AnalysisData) : ViewState :=
  let s := { s with
    c4Diagram := data.c4_modules_mermaid
    dependenciesDiagram := data.dependencies_mermaid
    routesDiagram := data.routes_mermaid
    dbDiagram := data.db_mermaid }
  let s := { s with
    originalDiagrams :=
      { c4 := data.c4_modules_mermaid
        dependencies := data.dependencies_mermaid
        routes := data.routes_mermaid
        db := data.db_mermaid }
    moduleStructure := data.modules.getD [] }
  let s := { s with zoomOptions := populateZoomOptions s.moduleStructure, zoomValue := [] }
  applyZoom s []

/-- The four displayed diagram texts, in the order component, dependency, route, database. -/
def displayed (s : ViewState) : Diagrams :=
  { c4 := s.c4Diagram
    dependencies := s.dependenciesDiagram
    routes := s.routesDiagram
    db := s.dbDiagram }

/-! ## Lines of a text -/

theorem splitLines_ne_nil (s : JsString) : splitLines s ≠ [] := by
  cases s with
  | nil => simp [splitLines]
  | cons c cs =>
    unfold splitLines
    split
    · simp
    · split <;> simp

theorem splitLines_cons_newline (cs : JsString) :
    splitLines ('\n' :: cs) = [] :: splitLines cs := by
  simp [splitLines]

theorem splitLines_cons_other (c : Char) (cs : JsString) (h : c ≠ '\n') :
    splitLines (c :: cs)
      = (c :: ((splitLines cs).head?).getD []) :: (splitLines cs).tail := by
  have hne := splitLines_ne_nil cs
  rw [splitLines, if_neg h]
  cases hs : splitLines cs with
  | nil => exact absurd hs hne
  | cons l ls => simp

theorem splitLines_no_newline (l : JsString) (h : '\n' ∉ l) : splitLines l = [l] := by
  induction l with
  | nil => simp [splitLines]
  | cons c cs ih =>
    have hc : c ≠ '\n' := fun e => h (by simp [e])
    have hcs : '\n' ∉ cs := fun e => h (List.mem_cons_of_mem _ e)
    rw [splitLines_cons_other c cs hc, ih hcs]
    simp

theorem splitLines_append_newline (l r : JsString) (h : '\n' ∉ l) :
    splitLines (l ++ '\n' :: r) = l :: splitLines r := by
  induction l with
  | nil => simp [splitLines_cons_newline]
  | cons c cs ih =>
    have hc : c ≠ '\n' := fun e => h (by simp [e])
    have hcs : '\n' ∉ cs := fun e => h (List.mem_cons_of_mem _ e)
    rw [List.cons_append, splitLines_cons_other c _ hc, ih hcs]
    simp

/-- Splitting undoes joining, for lines that hold no newline. -/
theorem splitLines_joinLines (l : JsString) (ls : List JsString)
    (h : ∀ x ∈ l :: ls, '\n' ∉ x) : splitLines (joinLines (l :: ls)) = l :: ls := by
  induction ls generalizing l with
  | nil => simpa [joinLines] using splitLines_no_newline l (h l (by simp))
  | cons l2 ls ih =>
    have hl : '\n' ∉ l := h l (by simp)
    have hrest : ∀ x ∈ l2 :: ls, '\n' ∉ x := fun x hx => h x (List.mem_cons_of_mem _ hx)
    rw [joinLines, splitLines_append_newline _ _ hl, ih l2 hrest]

/-- Joining undoes splitting. -/
theorem joinLines_splitLines (s : JsString) : joinLines (splitLines s) = s := by
  induction s with
  | nil => simp [splitLines, joinLines]
  | cons c cs ih =>
    have hne := splitLines_ne_nil cs
    by_cases hc : c = '\n'
    · subst hc
      rw [splitLines_cons_newline]
      cases hs : splitLines cs with
      | nil => exact absurd hs hne
      | cons l ls =>
        rw [hs] at ih
        simp [joinLines, ih]
    · rw [splitLines_cons_other c cs hc]
      cases hs : splitLines cs with
      | nil => exact absurd hs hne
      | cons l ls =>
        rw [hs] at ih
        cases ls with
        | nil => simpa [joinLines] using ih
        | cons l2 ls => simpa [joinLines] using ih

/-- No piece of a split text holds a newline. -/
theorem not_newline_mem_splitLines (s : JsString) : ∀ l ∈ splitLines s, '\n' ∉ l := by
  induction s with
  | nil => simp [splitLines]
  | cons c cs ih =>
    have hne := splitLines_ne_nil cs
    by_cases hc : c = '\n'
    · subst hc
      rw [splitLines_cons_newline]
      intro l hl
      rcases List.mem_cons.1 hl with rfl | hl
      · simp
      · exact ih l hl
    · rw [splitLines_cons_other c cs hc]
      cases hs : splitLines cs with
      | nil => exact absurd hs hne
      | cons l0 ls =>
        rw [hs] at ih
        intro l hl
        rcases List.mem_cons.1 hl with rfl | hl
        · have h0 := ih l0 (by simp)
          simp only [List.head?_cons, Option.getD_some, List.mem_cons, not_or]
          exact ⟨fun e => hc e.symm, h0⟩
        · exact ih l (List.mem_cons_of_mem _ (by simpa using hl))

/-- Every text is its first line followed by its remaining lines, none holding a newline. -/
theorem exists_lines (full : JsString) :
    ∃ header rest, full = joinLines (header :: rest) ∧ ∀ l ∈ header :: rest, '\n' ∉ l := by
  cases hs : splitLines full with
  | nil => exact absurd hs (splitLines_ne_nil full)
  | cons header rest =>
    refine ⟨header, rest, ?_, ?_⟩
    · rw [← hs, joinLines_splitLines]
    · rw [← hs]
      exact not_newline_mem_splitLines full

/-! ## Substring search and white space -/

theorem startsWith_iff (s p : JsString) : startsWith s p = true ↔ p <+: s := by
  induction p generalizing s with
  | nil => simp [startsWith]
  | cons a as ih =>
    cases s with
    | nil => simp [startsWith]
    | cons c cs =>
      simp only [startsWith, Bool.and_eq_true, beq_iff_eq, ih, List.cons_prefix_cons]
      constructor
      · rintro ⟨h1, h2⟩; exact ⟨h1.symm, h2⟩
      · rintro ⟨h1, h2⟩; exact ⟨h1.symm, h2⟩

/-- The method `includes` decides the substring relation. -/
theorem includes_iff (line needle : JsString) : includes line needle = true ↔ needle <:+: line := by
  induction line with
  | nil =>
    rw [includes, startsWith_iff]
    simp
  | cons c cs ih =>
    rw [includes, Bool.or_eq_true, startsWith_iff, ih]
    constructor
    · rintro (h | h)
      · exact h.isInfix
      · exact h.trans (List.suffix_cons c cs).isInfix
    · intro h
      rcases List.infix_cons_iff.1 h with h | h
      · exact Or.inl h
      · exact Or.inr h

theorem dropWhile_eq_nil_iff_all (p : Char → Bool) (s : JsString) :
    s.dropWhile p = [] ↔ ∀ c ∈ s, p c = true := by
  induction s with
  | nil => simp
  | cons c cs ih =>
    by_cases hc : p c = true
    · simp [List.dropWhile, hc, ih]
    · simp [List.dropWhile, hc]

/-- The text `trim()` leaves is empty exactly for a string of white space only. -/
theorem trim_eq_nil_iff (s : JsString) : trim s = [] ↔ ∀ c ∈ s, isWhiteSpace c = true := by
  unfold trim
  rw [List.reverse_eq_nil_iff, dropWhile_eq_nil_iff_all]
  constructor
  · intro h
    by_contra hcon
    push_neg at hcon
    obtain ⟨c, hc, hw⟩ := hcon
    have hne : s.dropWhile isWhiteSpace ≠ [] := by
      intro e
      exact hw ((dropWhile_eq_nil_iff_all _ s).1 e c hc)
    have hhead := List.head_dropWhile_not isWhiteSpace s hne
    have hmem : (s.dropWhile isWhiteSpace).head hne ∈ (s.dropWhile isWhiteSpace).reverse :=
      List.mem_reverse.2 (List.head_mem hne)
    have := h _ hmem
    simp [this] at hhead
  · intro h c hc
    exact h c ((List.dropWhile_sublist _).subset (List.mem_reverse.1 hc))

theorem pushIfEmpty_eq (filtered : List JsString) (placeholder : JsString) :
    pushIfEmpty filtered placeholder = orPlaceholder filtered placeholder := by
  cases filtered <;> simp [pushIfEmpty, orPlaceholder]

theorem singleton_substring_iff (c : Char) (l : JsString) : [c] <:+: l ↔ c ∈ l := by
  constructor
  · intro h
    exact h.subset (by simp)
  · intro h
    obtain ⟨a, b, rfl⟩ := List.append_of_mem h
    exact ⟨a, b, by simp⟩

/-! ## The filters on a text given by its lines -/

theorem filterDependencies_joinLines (header : JsString) (rest : List JsString) (m : JsString)
    (hlines : ∀ l ∈ header :: rest, '\n' ∉ l) :
    filterDependencies (joinLines (header :: rest)) m
      = joinLines (header :: orPlaceholder (rest.filter (keepDependencyLine m)) emptyDependencies) := by
  simp [filterDependencies, shiftHeader, splitLines_joinLines header rest hlines, pushIfEmpty_eq]

theorem filterMermaidLines_joinLines (header : JsString) (rest : List JsString) (m : JsString)
    (hlines : ∀ l ∈ header :: rest, '\n' ∉ l) :
    filterMermaidLines (joinLines (header :: rest)) m
      = joinLines (header :: orPlaceholder (rest.filter fun l => includes l m) noRoutes) := by
  simp [filterMermaidLines, shiftHeader, splitLines_joinLines header rest hlines, pushIfEmpty_eq]

theorem keepDependencyLine_module (m line : JsString) (hdot : m ≠ ['.']) :
    keepDependencyLine m line = decide ((m ++ ['/']) <:+: line) := by
  have hiff := includes_iff line (m ++ ['/'])
  by_cases hin : (m ++ ['/']) <:+: line
  · have hslash : '/' ∈ line := hin.subset (by simp)
    have htrim : trim line ≠ [] := by
      intro e
      have := (trim_eq_nil_iff line).1 e '/' hslash
      exact absurd this (by decide)
    simp [keepDependencyLine, hdot, htrim, hin, hiff.2 hin]
  · have hfalse : includes line (m ++ ['/']) = false := by
      cases hinc : includes line (m ++ ['/']) with
      | false => rfl
      | true => exact absurd (hiff.1 hinc) hin
    simp [keepDependencyLine, hdot, hin, hfalse]

theorem keepDependencyLine_root (line : JsString) :
    keepDependencyLine ['.'] line
      = decide ((∃ c ∈ line, isWhiteSpace c = false) ∧ '/' ∉ line) := by
  have hiff := includes_iff line ['/']
  rw [singleton_substring_iff] at hiff
  have htrim := trim_eq_nil_iff line
  by_cases hw : ∀ c ∈ line, isWhiteSpace c = true
  · have hno : ¬ ∃ c ∈ line, isWhiteSpace c = false := by
      rintro ⟨c, hc, hcw⟩
      rw [hw c hc] at hcw
      exact absurd hcw (by decide)
    simp [keepDependencyLine, htrim.2 hw, hno]
  · have hex : ∃ c ∈ line, isWhiteSpace c = false := by
      push_neg at hw
      obtain ⟨c, hc, hcw⟩ := hw
      exact ⟨c, hc, by simpa using hcw⟩
    have hne : trim line ≠ [] := fun e => hw (htrim.1 e)
    by_cases hs : '/' ∈ line
    · simp [keepDependencyLine, hne, hex, hs, hiff.2 hs]
    · have hfalse : includes line ['/'] = false := by
        cases hinc : includes line ['/'] with
        | false => rfl
        | true => exact absurd (hiff.1 hinc) hs
      simp [keepDependencyLine, hne, hex, hs, hfalse]

/-- The lines of the text `filterDependencies` returns: the header of the input, then the kept
lines or the placeholder. -/
theorem splitLines_filterDependencies (full m : JsString) :
    splitLines (filterDependencies full m)
      = ((splitLines full).head?).getD [] ::
          orPlaceholder ((splitLines full).tail.filter (keepDependencyLine m)) emptyDependencies := by
  have hno := not_newline_mem_splitLines full
  have hph : '\n' ∉ emptyDependencies := by decide
  cases hs : splitLines full with
  | nil => exact absurd hs (splitLines_ne_nil full)
  | cons header rest =>
    rw [hs] at hno
    simp only [filterDependencies, shiftHeader, hs, pushIfEmpty_eq, List.head?_cons,
      Option.getD_some, List.tail_cons]
    apply splitLines_joinLines
    intro x hx
    rcases List.mem_cons.1 hx with rfl | hx
    · exact hno _ (by simp)
    · unfold orPlaceholder at hx
      split at hx
      · rw [List.mem_singleton.1 hx]; exact hph
      · exact hno x (List.mem_cons_of_mem _ (List.mem_filter.1 hx).1)

/-! ## Dependency view -/

/-- C1: for a dependency text made of the line `header` followed by the lines `rest`, and a
module name `m` that is neither empty nor `.`, `filterDependencies(m)` is the header followed by
exactly the lines of `rest` that contain `m + "/"`, in their order, joined by newlines, and the
header followed by the one placeholder line when no line of `rest` contains `m + "/"`. -/
theorem filterDependencies_module (header : JsString) (rest : List JsString) (m : JsString)
    (hlines : ∀ l ∈ header :: rest, '\n' ∉ l) (hne : m ≠ []) (hdot : m ≠ ['.']) :
    filterDependencies (joinLines (header :: rest)) m
      = joinLines (header ::
          (if rest.filter (fun l => decide ((m ++ ['/']) <:+: l)) = [] then [emptyDependencies]
           else rest.filter (fun l => decide ((m ++ ['/']) <:+: l)))) := by
  have _ := hne
  have hfun : keepDependencyLine m = fun l => decide ((m ++ ['/']) <:+: l) :=
    funext fun l => keepDependencyLine_module m l hdot
  rw [filterDependencies_joinLines header rest m hlines, hfun]
  rfl

/-- The example of C1: the text `graph LR`, `  a --> b`, `  api/x --> api/y`, `  db/z --> a`
zoomed on `api` keeps the header and the line `  api/x --> api/y`. -/
theorem filterDependencies_module_witness :
    filterDependencies "graph LR\n  a --> b\n  api/x --> api/y\n  db/z --> a".toList "api".toList
      = "graph LR\n  api/x --> api/y".toList :=
  filterDependencies_module "graph LR".toList
    ["  a --> b".toList, "  api/x --> api/y".toList, "  db/z --> a".toList] "api".toList
    (by decide) (by decide) (by decide)

/-- C7 as stated fails: in the text `graph LR`, `  a --> b`, (empty line), that is a text that
ends with a newline, both remaining lines are free of `/`, yet `filterDependencies(".")` returns
the header followed by the line `  a --> b` alone, not by both remaining lines. -/
theorem filterDependencies_root_counterexample :
    "graph LR\n  a --> b\n".toList = joinLines ["graph LR".toList, "  a --> b".toList, []]
      ∧ filterDependencies "graph LR\n  a --> b\n".toList ['.'] = "graph LR\n  a --> b".toList
      ∧ filterDependencies "graph LR\n  a --> b\n".toList ['.']
        ≠ joinLines ("graph LR".toList ::
            orPlaceholder ((["  a --> b".toList, []] : List JsString).filter
              fun l => decide ('/' ∉ l)) emptyDependencies) := by
  decide

/-- C7, amended: for a dependency text made of the line `header` followed by the lines `rest`,
`filterDependencies(".")` is the header followed by exactly the lines of `rest` that hold a
character other than white space and do not contain `/`, in their order, joined by newlines; the
placeholder line replaces the body exactly when `rest` has no such line. -/
theorem filterDependencies_root (header : JsString) (rest : List JsString)
    (hlines : ∀ l ∈ header :: rest, '\n' ∉ l) :
    filterDependencies (joinLines (header :: rest)) ['.']
      = joinLines (header ::
          (if rest.filter (fun l =>
                decide ((∃ c ∈ l, isWhiteSpace c = false) ∧ '/' ∉ l)) = [] then [emptyDependencies]
           else rest.filter (fun l =>
                decide ((∃ c ∈ l, isWhiteSpace c = false) ∧ '/' ∉ l)))) := by
  have hfun : keepDependencyLine ['.']
      = fun l => decide ((∃ c ∈ l, isWhiteSpace c = false) ∧ '/' ∉ l) :=
    funext fun l => keepDependencyLine_root l
  rw [filterDependencies_joinLines header rest ['.'] hlines, hfun]
  rfl

/-- An instance of the amended C7: the empty line is dropped, the line without `/` is kept. -/
theorem filterDependencies_root_witness :
    filterDependencies "graph LR\n\n  a --> b\n  api/x --> api/y".toList ['.']
      = "graph LR\n  a --> b".toList :=
  filterDependencies_root "graph LR".toList [[], "  a --> b".toList, "  api/x --> api/y".toList]
    (by decide)

/-- C8: no line after the first line of `filterDependencies(".")` contains `/`; the placeholder
line holds no `/` either, so it needs no exception. -/
theorem filterDependencies_root_no_slash (full : JsString) :
    ∀ l ∈ (splitLines (filterDependencies full ['.'])).tail, '/' ∉ l := by
  intro l hl
  rw [splitLines_filterDependencies, List.tail_cons] at hl
  unfold orPlaceholder at hl
  split at hl
  · rw [List.mem_singleton.1 hl]; decide
  · have hkeep := (List.mem_filter.1 hl).2
    rw [keepDependencyLine_root] at hkeep
    exact (of_decide_eq_true hkeep).2

/-- An instance of C8: the line kept from `graph LR`, `  a --> b`, `  api/x --> api/y`. -/
theorem filterDependencies_root_no_slash_witness :
    "  a --> b".toList
        ∈ (splitLines (filterDependencies "graph LR\n  a --> b\n  api/x --> api/y".toList ['.'])).tail
      ∧ '/' ∉ "  a --> b".toList :=
  ⟨by decide,
   filterDependencies_root_no_slash "graph LR\n  a --> b\n  api/x --> api/y".toList
    "  a --> b".toList (by decide)⟩

/-- C10 as stated fails: zooming the text `graph LR` on `api` returns a second line, the
placeholder, that does not contain `api/`. -/
theorem filterDependencies_module_lines_counterexample :
    ∃ l ∈ (splitLines (filterDependencies "graph LR".toList "api".toList)).tail,
      ¬ ("api/".toList <:+: l) := by
  decide

/-- C10, amended: for a module name `m` that is neither empty nor `.`, every line after the first
line of `filterDependencies(m)` contains `m + "/"`, the placeholder line excepted. -/
theorem filterDependencies_module_lines (full m : JsString) (hne : m ≠ []) (hdot : m ≠ ['.']) :
    ∀ l ∈ (splitLines (filterDependencies full m)).tail,
      l ≠ emptyDependencies → (m ++ ['/']) <:+: l := by
  have _ := hne
  intro l hl hph
  rw [splitLines_filterDependencies, List.tail_cons] at hl
  unfold orPlaceholder at hl
  split at hl
  · exact absurd (List.mem_singleton.1 hl) hph
  · have hkeep := (List.mem_filter.1 hl).2
    rw [keepDependencyLine_module m l hdot] at hkeep
    exact of_decide_eq_true hkeep

/-- An instance of the amended C10: the line kept for `api`. -/
theorem filterDependencies_module_lines_witness :
    "  api/x --> api/y".toList
        ∈ (splitLines (filterDependencies
            "graph LR\n  a --> b\n  api/x --> api/y\n  db/z --> a".toList "api".toList)).tail
      ∧ "api/".toList <:+: "  api/x --> api/y".toList :=
  ⟨by decide,
   filterDependencies_module_lines
    "graph LR\n  a --> b\n  api/x --> api/y\n  db/z --> a".toList "api".toList
    (by decide) (by decide) "  api/x --> api/y".toList (by decide) (by decide)⟩

/-! ## Route view -/

/-- C3: for a route text made of the line `header` followed by the lines `rest`,
`filterMermaidLines(full, m)` is the header followed by exactly the lines of `rest` that contain
`m`, in their order, joined by newlines, and the header followed by the one placeholder line when
no line of `rest` contains `m`. -/
theorem filterMermaidLines_spec (header : JsString) (rest : List JsString) (m : JsString)
    (hlines : ∀ l ∈ header :: rest, '\n' ∉ l) :
    filterMermaidLines (joinLines (header :: rest)) m
      = joinLines (header ::
          (if rest.filter (fun l => decide (m <:+: l)) = [] then [noRoutes]
           else rest.filter (fun l => decide (m <:+: l)))) := by
  have hfun : (fun l => includes l m) = fun l => decide (m <:+: l) := by
    funext l
    by_cases h : m <:+: l
    · simp [h, (includes_iff l m).2 h]
    · cases hinc : includes l m with
      | false => simp [h]
      | true => exact absurd ((includes_iff l m).1 hinc) h
  rw [filterMermaidLines_joinLines header rest m hlines, hfun]
  rfl

/-- Two instances of C3: a module with a route line, and a module with none. -/
theorem filterMermaidLines_spec_witness :
    filterMermaidLines "graph LR\n  api_get[GET /api/x]\n  db_put[PUT /db/y]".toList "api".toList
        = "graph LR\n  api_get[GET /api/x]".toList
      ∧ filterMermaidLines "graph LR\n  api_get[GET /api/x]".toList "web".toList
        = "graph LR\n    NoRoutes[No routes for module]".toList :=
  ⟨filterMermaidLines_spec "graph LR".toList
      ["  api_get[GET /api/x]".toList, "  db_put[PUT /db/y]".toList] "api".toList (by decide),
   filterMermaidLines_spec "graph LR".toList ["  api_get[GET /api/x]".toList] "web".toList
      (by decide)⟩

/-! ## Component view -/

theorem foldl_push {α : Type} (g : α → JsString) (files : List α) (lines : List JsString) :
    files.foldl (fun acc file => acc ++ [g file]) lines = lines ++ files.map g := by
  induction files generalizing lines with
  | nil => simp
  | cons f fs ih => simp [ih]

theorem slash_not_mem_replaceSlashDot (s : JsString) : '/' ∉ replaceSlashDot s := by
  intro h
  obtain ⟨c, _, hc⟩ := List.mem_map.1 h
  split at hc
  · exact absurd hc (by decide)
  · rename_i hn
    exact hn (Or.inl hc)

theorem dot_not_mem_replaceSlashDot (s : JsString) : '.' ∉ replaceSlashDot s := by
  intro h
  obtain ⟨c, _, hc⟩ := List.mem_map.1 h
  split at hc
  · exact absurd hc (by decide)
  · rename_i hn
    exact hn (Or.inr hc)

theorem safeId_clean (m : JsString) : '/' ∉ safeId m ∧ '.' ∉ safeId m := by
  unfold safeId strOr
  split
  · decide
  · exact ⟨slash_not_mem_replaceSlashDot m, dot_not_mem_replaceSlashDot m⟩

theorem eq_of_replaceSlashDot_eq (m t : JsString) (h : replaceSlashDot m = t) (ht : '_' ∉ t) :
    m = t := by
  subst h
  unfold replaceSlashDot at ht ⊢
  induction m with
  | nil => rfl
  | cons c cs ih =>
    rw [List.map_cons, List.mem_cons, not_or] at ht
    rw [List.map_cons, ← ih ht.2]
    by_cases hc : c = '/' ∨ c = '.'
    · rw [if_pos hc] at ht
      exact absurd rfl ht.1
    · rw [if_neg hc]

theorem safeId_eq_empty (m : JsString) (h : safeId m = "Empty".toList) : m = "Empty".toList := by
  unfold safeId strOr at h
  split at h
  · exact absurd h (by decide)
  · exact eq_of_replaceSlashDot_eq m _ h (by decide)

theorem lookup_isSome_of_mem_objectKeys (moduleStructure : ModuleStructure) (m : JsString)
    (h : m ∈ objectKeys moduleStructure) : ∃ files, moduleStructure.lookup m = some files := by
  induction moduleStructure with
  | nil => simp [objectKeys] at h
  | cons entry rest ih =>
    obtain ⟨k, v⟩ := entry
    by_cases hk : m = k
    · subst hk
      exact ⟨v, by simp [List.lookup]⟩
    · have hmem : m ∈ objectKeys rest := by
        simp only [objectKeys, List.map_cons, List.mem_cons] at h
        rcases h with h | h
        · exact absurd h hk
        · exact h
      obtain ⟨files, hfiles⟩ := ih hmem
      refine ⟨files, ?_⟩
      have hbeq : (m == k) = false := by simpa using hk
      simp [List.lookup, hbeq, hfiles]

/-- An own property is read as stored, whatever its name: every module name with every file
list is read from some mapping. -/
theorem getProperty_own (m : JsString) (files : List JsString) (rest : ModuleStructure) :
    orEmptyArray (getProperty ((m, files) :: rest) m) = .array files := by
  simp [getProperty, List.lookup, orEmptyArray]

theorem filterMap_some {α β : Type} (g : α → β) (l : List α) :
    l.filterMap (fun x => some (g x)) = l.map g := by
  induction l with
  | nil => rfl
  | cons a as ih => simp [ih]

/-- The text `buildC4ForModule` returns when `files` is an array: the rendering of the
declarations of the component view. -/
theorem buildC4ForModule_of_array (moduleStructure : ModuleStructure) (m : JsString)
    (files : List JsString) (hfiles : orEmptyArray (getProperty moduleStructure m) = .array files) :
    buildC4ForModule moduleStructure m
      = .ok (joinLines ((c4Declarations files m).map renderLine)) := by
  unfold buildC4ForModule
  simp only [hfiles, foldl_push]
  cases files with
  | nil => rfl
  | cons f fs =>
    have hedges : ((f :: fs).map fun file => DiagramLine.edge (safeId m) (fileId m file) file).map
        renderLine = (f :: fs).map (fileLine m) := by
      rw [List.map_map]
      rfl
    have hlines : (c4Declarations (f :: fs) m).map renderLine
        = ["graph TD".toList] ++ [rootLine m] ++ (f :: fs).map (fileLine m) := by
      rw [c4Declarations, if_neg (List.cons_ne_nil f fs)]
      show renderLine (.header "graph TD".toList) ::
        renderLine (.node (safeId m) (strOr m ".".toList)) ::
          List.map renderLine (List.map _ (f :: fs)) = _
      rw [hedges]
      rfl
    rw [hlines]
    simp

/-- C2 as stated fails twice. For the empty module name over the empty mapping, whatever the root
identifier, the text is not the header, a root node line labelled `""` and the placeholder: the
root node is labelled `.`. For the name `constructor`, absent from the empty mapping, `files` is
the inherited member and the call throws instead of returning the placeholder text. -/
theorem buildC4ForModule_counterexample :
    (¬ ∃ rootId : JsString,
        buildC4ForModule [] []
          = .ok (joinLines ["graph TD".toList,
              "    ".toList ++ rootId ++ ['['] ++ ([] : JsString) ++ [']'], emptyFiles]))
      ∧ buildC4ForModule [] [] = .ok "graph TD\n    root[.]\n    Empty[No files in module]".toList
      ∧ buildC4ForModule [] "constructor".toList = .error .typeError := by
  refine ⟨?_, by decide, by decide⟩
  rintro ⟨rootId, h⟩
  have h0 : buildC4ForModule [] []
      = .ok "graph TD\n    root[.]\n    Empty[No files in module]".toList := by decide
  rw [h0] at h
  have h1 := Except.ok.inj h
  have hs : "[]\n    Empty[No files in module]".toList
      <:+ "graph TD\n    root[.]\n    Empty[No files in module]".toList := by
    rw [h1]
    refine ⟨"graph TD\n    ".toList ++ rootId, ?_⟩
    simp [joinLines, emptyFiles]
  exact absurd hs (by decide)

/-- C2, amended: for a module name `m` that is a key of the mapping, or that is not the name of a
member inherited from `Object.prototype`, `buildC4ForModule(m)` returns the newline-join of the
header `graph TD`, one root node line labelled `m` (labelled `.` when `m` is empty), then one edge
line per file of `m` in order, from the root identifier to the root identifier followed by `_` and
the file path with `/` and `.` replaced by `_`, labelled with the file path, or, when `m` has no
file, the one placeholder line. The root identifier is `m` with `/` and `.` replaced by `_`, or
`root` when that is empty. -/
theorem buildC4ForModule_spec (moduleStructure : ModuleStructure) (m : JsString)
    (hm : m ∈ objectKeys moduleStructure ∨ m ∉ objectPrototypeKeys) :
    buildC4ForModule moduleStructure m
        = .ok (joinLines ("graph TD".toList ::
            ("    ".toList ++ safeId m ++ ['['] ++ (if m = [] then ['.'] else m) ++ [']']) ::
            (if filesOf moduleStructure m = [] then [emptyFiles]
             else (filesOf moduleStructure m).map fun file =>
                "    ".toList ++ safeId m ++ " --> ".toList
                  ++ (safeId m ++ ['_'] ++ replaceSlashDot file) ++ ['['] ++ file ++ [']'])))
      ∧ safeId m = (if replaceSlashDot m = [] then "root".toList else replaceSlashDot m) := by
  refine ⟨?_, rfl⟩
  have hfiles : orEmptyArray (getProperty moduleStructure m)
      = .array (filesOf moduleStructure m) := by
    unfold getProperty filesOf
    cases hl : moduleStructure.lookup m with
    | some files => rfl
    | none =>
      have hnot : m ∉ objectPrototypeKeys := by
        rcases hm with hm | hm
        · obtain ⟨files, hf⟩ := lookup_isSome_of_mem_objectKeys moduleStructure m hm
          rw [hl] at hf
          exact absurd hf (by simp)
        · exact hm
      simp [hnot, orEmptyArray]
  rw [buildC4ForModule_of_array moduleStructure m _ hfiles]
  cases hf : filesOf moduleStructure m with
  | nil => rfl
  | cons f fs =>
    simp [c4Declarations, renderLine, joinLines, fileId, strOr, Function.comp_def]

/-- The example of C2: the module `api` with the files `api/x.py`, `api/y.py` gives the root node
`api` and the children `api_api_x_py` and `api_api_y_py`. -/
theorem buildC4ForModule_spec_witness :
    buildC4ForModule [("api".toList, ["api/x.py".toList, "api/y.py".toList])] "api".toList
      = .ok ("graph TD\n    api[api]\n    api --> api_api_x_py[api/x.py]\n"
          ++ "    api --> api_api_y_py[api/y.py]").toList :=
  (buildC4ForModule_spec [("api".toList, ["api/x.py".toList, "api/y.py".toList])] "api".toList
    (Or.inl (by decide))).1

/-- C9: when `buildC4ForModule` reads the file list `files` for the module name `m` (the empty
name and `.` included), the text it returns is the rendering of the declarations of the component
view, and every identifier on every line of them, the root identifier, each file identifier and
the placeholder identifier, holds neither `/` nor `.`. -/
theorem buildC4ForModule_identifiers_clean (moduleStructure : ModuleStructure) (m : JsString)
    (files : List JsString) (hfiles : orEmptyArray (getProperty moduleStructure m) = .array files) :
    buildC4ForModule moduleStructure m
        = .ok (joinLines ((c4Declarations files m).map renderLine))
      ∧ ∀ line ∈ c4Declarations files m, ∀ ident ∈ lineIdentifiers line,
          '/' ∉ ident ∧ '.' ∉ ident := by
  refine ⟨buildC4ForModule_of_array moduleStructure m files hfiles, ?_⟩
  have hsafe := safeId_clean m
  have hfile : ∀ file, '/' ∉ fileId m file ∧ '.' ∉ fileId m file := by
    intro file
    have h1 := slash_not_mem_replaceSlashDot file
    have h2 := dot_not_mem_replaceSlashDot file
    unfold fileId
    constructor
    · simp only [List.mem_append, not_or]
      exact ⟨⟨hsafe.1, by decide⟩, h1⟩
    · simp only [List.mem_append, not_or]
      exact ⟨⟨hsafe.2, by decide⟩, h2⟩
  intro line hline ident hident
  unfold c4Declarations at hline
  rcases List.mem_cons.1 hline with rfl | hline
  · simp [lineIdentifiers] at hident
  rcases List.mem_cons.1 hline with rfl | hline
  · rw [lineIdentifiers, List.mem_singleton] at hident
    rw [hident]; exact hsafe
  split at hline
  · rw [List.mem_singleton] at hline
    subst hline
    rw [lineIdentifiers, List.mem_singleton] at hident
    rw [hident]; decide
  · obtain ⟨file, _, rfl⟩ := List.mem_map.1 hline
    simp only [lineIdentifiers, List.mem_cons, List.mem_singleton, List.not_mem_nil,
      or_false] at hident
    rcases hident with rfl | rfl
    · exact hsafe
    · exact hfile file

/-- An instance of C9: the file `src/app.js` of the root module `.` gives the identifiers `_` and
`__src_app_js`. -/
theorem buildC4ForModule_identifiers_clean_witness :
    buildC4ForModule [(['.'], ["src/app.js".toList])] ['.']
        = .ok "graph TD\n    _[.]\n    _ --> __src_app_js[src/app.js]".toList
      ∧ lineIdentifiers (.edge "_".toList "__src_app_js".toList "src/app.js".toList)
        = ["_".toList, "__src_app_js".toList]
      ∧ '/' ∉ "__src_app_js".toList ∧ '.' ∉ "__src_app_js".toList :=
  ⟨(buildC4ForModule_identifiers_clean [(['.'], ["src/app.js".toList])] ['.']
      ["src/app.js".toList] (by decide)).1,
   by decide,
   (buildC4ForModule_identifiers_clean [(['.'], ["src/app.js".toList])] ['.']
      ["src/app.js".toList] (by decide)).2
      (.edge "_".toList "__src_app_js".toList "src/app.js".toList) (by decide)
      "__src_app_js".toList (by decide)⟩

/-- C6 as stated fails: the distinct paths `api/x_y.py` and `api/x/y.py` of the module `api` are
both written with the identifier `api_api_x_y_py`; and for the module name `Empty` with no file
the root node and the placeholder node are both written with the identifier `Empty`. -/
theorem buildC4ForModule_identifiers_counterexample :
    (["api/x_y.py".toList, "api/x/y.py".toList] : List JsString).Nodup
      ∧ buildC4ForModule [("api".toList, ["api/x_y.py".toList, "api/x/y.py".toList])] "api".toList
        = .ok ("graph TD\n    api[api]\n    api --> api_api_x_y_py[api/x_y.py]\n"
            ++ "    api --> api_api_x_y_py[api/x/y.py]").toList
      ∧ ¬ ((c4Declarations ["api/x_y.py".toList, "api/x/y.py".toList] "api".toList).filterMap
            declaredIdentifier).Nodup
      ∧ buildC4ForModule [] "Empty".toList
        = .ok "graph TD\n    Empty[Empty]\n    Empty[No files in module]".toList
      ∧ ¬ ((c4Declarations [] "Empty".toList).filterMap declaredIdentifier).Nodup := by
  decide

/-- C6, amended: when `buildC4ForModule` reads for the module name `m` a file list `files` whose
paths stay pairwise distinct once `/` and `.` are replaced by `_`, and `m` is not `Empty` when
there is no file, the text it returns is the rendering of the declarations of the component view,
and the identifiers of the nodes they declare (the root node, one node per file, the placeholder
node when there is no file) are pairwise distinct. -/
theorem buildC4ForModule_identifiers_nodup (moduleStructure : ModuleStructure) (m : JsString)
    (files : List JsString) (hfiles : orEmptyArray (getProperty moduleStructure m) = .array files)
    (hdistinct : (files.map replaceSlashDot).Nodup)
    (hempty : files = [] → m ≠ "Empty".toList) :
    buildC4ForModule moduleStructure m
        = .ok (joinLines ((c4Declarations files m).map renderLine))
      ∧ ((c4Declarations files m).filterMap declaredIdentifier).Nodup := by
  refine ⟨buildC4ForModule_of_array moduleStructure m files hfiles, ?_⟩
  cases hf : files with
  | nil =>
    have hne : safeId m ≠ "Empty".toList := fun h => hempty hf (safeId_eq_empty m h)
    simp only [c4Declarations, if_true, List.filterMap_cons, declaredIdentifier,
      List.filterMap_nil]
    rw [List.nodup_cons]
    exact ⟨by simpa using hne, by simp⟩
  | cons f fs =>
    rw [← hf]
    have hne : files ≠ [] := by rw [hf]; simp
    have hids : (c4Declarations files m).filterMap declaredIdentifier
        = safeId m :: (files.map replaceSlashDot).map fun x => safeId m ++ "_".toList ++ x := by
      simp [c4Declarations, hne, declaredIdentifier, List.filterMap_map, fileId,
        Function.comp_def, filterMap_some]
    rw [hids, List.nodup_cons]
    constructor
    · intro h
      obtain ⟨x, _, hx⟩ := List.mem_map.1 h
      rw [List.append_assoc] at hx
      have := List.append_right_eq_self.1 hx
      simp at this
    · exact hdistinct.map fun a b hab => List.append_cancel_left hab

/-- An instance of the amended C6: the example of the specification. -/
theorem buildC4ForModule_identifiers_nodup_witness :
    buildC4ForModule [("api".toList, ["api/x.py".toList, "api/y.py".toList])] "api".toList
        = .ok ("graph TD\n    api[api]\n    api --> api_api_x_py[api/x.py]\n"
            ++ "    api --> api_api_y_py[api/y.py]").toList
      ∧ (c4Declarations ["api/x.py".toList, "api/y.py".toList] "api".toList).filterMap
          declaredIdentifier
        = ["api".toList, "api_api_x_py".toList, "api_api_y_py".toList]
      ∧ (["api".toList, "api_api_x_py".toList, "api_api_y_py".toList] : List JsString).Nodup :=
  ⟨(buildC4ForModule_identifiers_nodup
      [("api".toList, ["api/x.py".toList, "api/y.py".toList])] "api".toList
      ["api/x.py".toList, "api/y.py".toList] (by decide) (by decide) (by decide)).1,
   by decide,
   (buildC4ForModule_identifiers_nodup
      [("api".toList, ["api/x.py".toList, "api/y.py".toList])] "api".toList
      ["api/x.py".toList, "api/y.py".toList] (by decide) (by decide) (by decide)).2⟩

/-! ## View controller -/

theorem applyZoom_originalDiagrams (s : ViewState) (m : JsString) :
    (applyZoom s m).originalDiagrams = s.originalDiagrams := by
  unfold applyZoom
  split
  · rfl
  · split <;> rfl

theorem applyZoom_moduleStructure (s : ViewState) (m : JsString) :
    (applyZoom s m).moduleStructure = s.moduleStructure := by
  unfold applyZoom
  split
  · rfl
  · split <;> rfl

theorem foldl_applyZoom_globals (s : ViewState) (selections : List JsString) :
    (selections.foldl applyZoom s).originalDiagrams = s.originalDiagrams
      ∧ (selections.foldl applyZoom s).moduleStructure = s.moduleStructure := by
  induction selections generalizing s with
  | nil => exact ⟨rfl, rfl⟩
  | cons m ms ih =>
    rw [List.foldl_cons]
    exact ⟨(ih _).1.trans (applyZoom_originalDiagrams s m),
      (ih _).2.trans (applyZoom_moduleStructure s m)⟩

/-- C4: after `renderResults(data)` and any finite sequence of `applyZoom` calls with arbitrary
module names, `applyZoom("")` makes the four displayed texts equal to the four diagram texts of
`data`; `originalDiagrams` and `moduleStructure` still hold what `renderResults` stored, and no
`applyZoom` call changes either of them. -/
theorem applyZoom_restores (s0 : ViewState) (data : AnalysisData) (selections : List JsString) :
    displayed (applyZoom (selections.foldl applyZoom (renderResults s0 data)) [])
        = { c4 := data.c4_modules_mermaid
            dependencies := data.dependencies_mermaid
            routes := data.routes_mermaid
            db := data.db_mermaid }
      ∧ (selections.foldl applyZoom (renderResults s0 data)).originalDiagrams
        = { c4 := data.c4_modules_mermaid
            dependencies := data.dependencies_mermaid
            routes := data.routes_mermaid
            db := data.db_mermaid }
      ∧ (selections.foldl applyZoom (renderResults s0 data)).moduleStructure
        = data.modules.getD []
      ∧ ∀ (s : ViewState) (m : JsString),
          (applyZoom s m).originalDiagrams = s.originalDiagrams
            ∧ (applyZoom s m).moduleStructure = s.moduleStructure := by
  have hg := foldl_applyZoom_globals (renderResults s0 data) selections
  have h0 : (renderResults s0 data).originalDiagrams
      = { c4 := data.c4_modules_mermaid
          dependencies := data.dependencies_mermaid
          routes := data.routes_mermaid
          db := data.db_mermaid } := by
    simp [renderResults, applyZoom]
  have h1 : (renderResults s0 data).moduleStructure = data.modules.getD [] := by
    simp [renderResults, applyZoom]
  refine ⟨?_, hg.1.trans h0, hg.2.trans h1, fun s m =>
    ⟨applyZoom_originalDiagrams s m, applyZoom_moduleStructure s m⟩⟩
  have hd : ∀ s : ViewState, displayed (applyZoom s []) = s.originalDiagrams := by
    intro s
    simp [applyZoom, displayed]
  rw [hd, hg.1, h0]

/-! ## Module selector -/

theorem unitsLt_total (a b : List Nat) : unitsLt b a = false ∨ unitsLt a b = false := by
  induction a generalizing b with
  | nil => cases b <;> simp [unitsLt]
  | cons x xs ih =>
    cases b with
    | nil => simp [unitsLt]
    | cons y ys =>
      simp only [unitsLt, Bool.or_eq_false_iff, Bool.and_eq_false_iff, decide_eq_false_iff_not,
        beq_eq_false_iff_ne, ne_eq]
      rcases Nat.lt_trichotomy x y with h | h | h
      · left
        exact ⟨by omega, Or.inl (by omega)⟩
      · subst h
        rcases ih ys with h' | h'
        · left; exact ⟨by omega, Or.inr h'⟩
        · right; exact ⟨by omega, Or.inr h'⟩
      · right
        exact ⟨by omega, Or.inl (by omega)⟩

theorem unitsLt_trans_false (a b c : List Nat) (hab : unitsLt b a = false)
    (hbc : unitsLt c b = false) : unitsLt c a = false := by
  induction a generalizing b c with
  | nil => cases c <;> simp [unitsLt]
  | cons x xs ih =>
    cases c with
    | nil =>
      cases b with
      | nil => simp [unitsLt] at hab
      | cons y ys => simp [unitsLt] at hbc
    | cons z zs =>
      cases b with
      | nil => simp [unitsLt] at hab
      | cons y ys =>
        simp only [unitsLt, Bool.or_eq_false_iff, Bool.and_eq_false_iff, decide_eq_false_iff_not,
          beq_eq_false_iff_ne, ne_eq] at hab hbc ⊢
        obtain ⟨h1, h2⟩ := hab
        obtain ⟨h3, h4⟩ := hbc
        refine ⟨by omega, ?_⟩
        by_cases hzx : z = x
        · right
          have hyx : y = x := by omega
          have hzy : z = y := by omega
          rcases h2 with h2 | h2
          · exact absurd hyx h2
          · rcases h4 with h4 | h4
            · exact absurd hzy h4
            · exact ih ys zs h2 h4
        · exact Or.inl hzx

theorem sortLe_total : IsTotal JsString SortLe :=
  ⟨fun a b => unitsLt_total (codeUnits a) (codeUnits b)⟩

theorem sortLe_trans : IsTrans JsString SortLe :=
  ⟨fun a b c hab hbc => unitsLt_trans_false (codeUnits a) (codeUnits b) (codeUnits c) hab hbc⟩

theorem foldl_options (skip : JsString → Prop) [DecidablePred skip] (keys : List JsString)
    (options : List ZoomOption) :
    keys.foldl (fun options module =>
        if skip module then options
        else options ++ [({ value := module, textContent := module } : ZoomOption)]) options
      = options ++ (keys.filter fun k => decide (¬ skip k)).map
          fun module => ({ value := module, textContent := module } : ZoomOption) := by
  induction keys generalizing options with
  | nil => simp
  | cons k ks ih =>
    rw [List.foldl_cons, ih]
    by_cases hk : skip k
    · simp [hk]
    · simp [hk]

theorem populateZoomOptions_eq (moduleStructure : ModuleStructure) :
    populateZoomOptions moduleStructure
      = { value := [], textContent := "All modules".toList } ::
          ((sortKeys (objectKeys moduleStructure)).filter
              fun k => decide (¬ (k = [] ∨ k = ".".toList))).map
            fun module => ({ value := module, textContent := module } : ZoomOption) := by
  unfold populateZoomOptions
  simp only [foldl_options (fun k => k = [] ∨ k = ".".toList)]
  rfl

/-- C5: the options `populateZoomOptions` produces are the sentinel (value `""`, text
`All modules`) first, then options whose values are exactly the keys of the mapping other than
`""` and `.` (a permutation of them, so each once when the keys are distinct), in ascending order
of `sort()`; for the empty mapping the sentinel alone. -/
theorem populateZoomOptions_spec (moduleStructure : ModuleStructure)
    (hkeys : (objectKeys moduleStructure).Nodup) :
    (populateZoomOptions moduleStructure).head?
        = some { value := [], textContent := "All modules".toList }
      ∧ (((populateZoomOptions moduleStructure).map ZoomOption.value).tail).Perm
          ((objectKeys moduleStructure).filter fun k => decide (k ≠ [] ∧ k ≠ ['.']))
      ∧ (((populateZoomOptions moduleStructure).map ZoomOption.value).tail).Nodup
      ∧ (((populateZoomOptions moduleStructure).map ZoomOption.value).tail).Sorted SortLe
      ∧ (moduleStructure = [] → populateZoomOptions moduleStructure
          = [{ value := [], textContent := "All modules".toList }]) := by
  have hfun : (fun k : JsString => decide (¬ (k = [] ∨ k = ".".toList)))
      = fun k => decide (k ≠ [] ∧ k ≠ ['.']) := by
    funext k
    simp [not_or]
  have htail : ((populateZoomOptions moduleStructure).map ZoomOption.value).tail
      = (sortKeys (objectKeys moduleStructure)).filter fun k => decide (k ≠ [] ∧ k ≠ ['.']) := by
    rw [populateZoomOptions_eq, hfun]
    simp [Function.comp_def]
  haveI := sortLe_total
  haveI := sortLe_trans
  have hperm : (sortKeys (objectKeys moduleStructure)).Perm (objectKeys moduleStructure) :=
    List.perm_insertionSort SortLe _
  refine ⟨by rw [populateZoomOptions_eq]; rfl, ?_, ?_, ?_, ?_⟩
  · rw [htail]
    exact hperm.filter _
  · rw [htail]
    exact (hperm.nodup_iff.2 hkeys).filter _
  · rw [htail]
    exact (List.sorted_insertionSort SortLe _).filter _
  · rintro rfl
    rfl

/-- The example of C5: the keys `.`, `api`, `db` give the module names `api`, `db` after the
sentinel, whatever their stored order. -/
theorem populateZoomOptions_spec_witness :
    (objectKeys [("db".toList, ["db/z.py".toList]), (".".toList, ["setup.py".toList]),
        ("api".toList, ["api/x.py".toList])]).Nodup
      ∧ (populateZoomOptions [("db".toList, ["db/z.py".toList]), (".".toList, ["setup.py".toList]),
          ("api".toList, ["api/x.py".toList])]).map ZoomOption.value
        = [[], "api".toList, "db".toList]
      ∧ (populateZoomOptions [("db".toList, ["db/z.py".toList]), (".".toList, ["setup.py".toList]),
          ("api".toList, ["api/x.py".toList])]).head?
        = some { value := [], textContent := "All modules".toList } :=
  ⟨by decide, by decide,
   (populateZoomOptions_spec [("db".toList, ["db/z.py".toList]), (".".toList, ["setup.py".toList]),
      ("api".toList, ["api/x.py".toList])] (by decide)).1⟩


end RepoDiagram
